import Mathlib

/-
Verification of the combinatorial search layer of rectangle_packing.py.

The geometric placement primitive (rpack.pack) and its density score
(rpack.packing_density) are external to the repository; they are modelled
as an abstract `Oracle` parameter: `pack` returns `some positions` on
success and `none` where the Python library raises PackingImpossibleError.
Rectangle sizes are integer pairs; density scores are rationals.
-/

namespace RectPack

/-- A rectangle size: the Python 2-tuple (w, h). -/
abbrev Size : Type := ℤ × ℤ

/-- A placement position: the Python 2-tuple (x, y). -/
abbrev Pos : Type := ℤ × ℤ

/-- Dimension swap, (w, h) to (h, w): the 90-degree rotation. -/
def swap (s : Size) : Size := (s.2, s.1)

/-- Grouping key: `s if s[0] < s[1] else (s[1], s[0])` (smaller dimension first). -/
def canon (s : Size) : Size := if s.1 < s.2 then s else (s.2, s.1)

/-- `sum([t[0] * t[1] for t in c])`: total area of a list of rectangles. -/
def sumArea (c : List Size) : ℤ := (c.map (fun t => t.1 * t.2)).sum

/-- `unique_rotation_combinations(shape, N)`: the loop appends, for
i = 0..N-1, i copies of `shape` followed by max(0, N-i) copies of the
reversed shape, and finally N copies of `shape`. -/
def unique_rotation_combinations (shape : Size) (N : ℕ) : List (List Size) :=
  ((List.range N).map (fun i =>
      List.replicate i shape ++ List.replicate (N - i) (swap shape))) ++
    [List.replicate N shape]

/-- `unique_keep_combinations(shape, N)`: `[[shape] * i for i in range(N + 1)]`. -/
def unique_keep_combinations (shape : Size) (N : ℕ) : List (List Size) :=
  (List.range (N + 1)).map (fun i => List.replicate i shape)

/-- A Python dict used as an insertion-ordered counter: `d[k] += 1` with a
KeyError fallback `d[k] = 1`. -/
def addCount (l : List (Size × ℕ)) (k : Size) : List (Size × ℕ) :=
  match l with
  | [] => [(k, 1)]
  | p :: rest => if p.1 = k then (p.1, p.2 + 1) :: rest else p :: addCount rest k

/-- One step of the `uniques` counting loop of find_sorted_areas. -/
def countStep (l : List (Size × ℕ)) (s : Size) : List (Size × ℕ) :=
  addCount l (canon s)

/-- The `uniques` dict of find_sorted_areas: counts of canonical shapes in
insertion order. -/
def countShapes (sizes : List Size) : List (Size × ℕ) :=
  sizes.foldl countStep []

/-- One step of the grouping loop of find_rotations: symmetric shapes
(`s[0] == s[1]`) are counted apart from rotatable ones. -/
def groupStep (acc : List (Size × ℕ) × List (Size × ℕ)) (s : Size) :
    List (Size × ℕ) × List (Size × ℕ) :=
  if s.1 = s.2 then (acc.1, addCount acc.2 (canon s))
  else (addCount acc.1 (canon s), acc.2)

/-- The `rotatable` and `symmetric` dicts of find_rotations: one pass over
the input, dispatching on `s[0] == s[1]`. -/
def groupShapes (sizes : List Size) : List (Size × ℕ) × List (Size × ℕ) :=
  sizes.foldl groupStep ([], [])

/-- itertools.product over lists of options, in Python iteration order. -/
def pyProduct {α : Type*} : List (List α) → List (List α)
  | [] => [[]]
  | l :: ls => l.flatMap (fun x => (pyProduct ls).map (fun xs => x :: xs))

/-- The `prepend` list of find_rotations: all symmetric-group items, each
group contributing `[s] * c` in dict order. -/
def prepend (sizes : List Size) : List Size :=
  (groupShapes sizes).2.flatMap (fun p => List.replicate p.2 p.1)

/-- `find_rotations(sizes)` after its input check: the product of the
per-rotatable-group rotation combinations, each flattened behind the fixed
symmetric prefix. -/
def find_rotations (sizes : List Size) : List (List Size) :=
  (pyProduct ((groupShapes sizes).1.map
      (fun p => unique_rotation_combinations p.1 p.2))).map
    (fun vs => prepend sizes ++ vs.flatten)

/-- Reading a raw Python tuple (modelled as a list of integers of any
length) as a Size; only applied to lists that passed the length-2 check. -/
def toSize : List ℤ → Size
  | [a, b] => (a, b)
  | _ => (0, 0)

/-- The find_rotations entry point with its input check: raises TypeError
(`All sizes must be 2-tuples`) when some element is not a 2-tuple, before
any enumeration. A raw input element is modelled as a list of integers. -/
def find_rotations_checked (raw : List (List ℤ)) : Except String (List (List Size)) :=
  if raw.all (fun s => s.length == 2) then Except.ok (find_rotations (raw.map toSize))
  else Except.error "All sizes must be 2-tuples"

/-- Whether an Except value is an error outcome. -/
def exceptIsError {ε α : Type*} : Except ε α → Bool
  | Except.error _ => true
  | Except.ok _ => false

/-- The spec's well-formedness of a raw input element: a 2-valued size with
positive dimensions. -/
def wellFormedPosSize (s : List ℤ) : Bool :=
  s.length == 2 && s.all (fun x => decide (0 < x))

/-- The external placement primitive and its density score, abstract:
`pack` returns `none` where the Python library raises
PackingImpossibleError. -/
structure Oracle where
  pack : List Size → ℤ → ℤ → Option (List Pos)
  density : List Size → List Pos → ℚ

/-- One iteration of the best-tracking loop of find_optimal_packing:
skip on infeasibility, otherwise keep the accumulator unless the new
density is strictly greater (`density > best_density`). -/
def bestStep (O : Oracle) (W H : ℤ)
    (acc : Option (ℚ × List Size × List Pos)) (c : List Size) :
    Option (ℚ × List Size × List Pos) :=
  match O.pack c W H with
  | none => acc
  | some positions =>
    match acc with
    | none => some (O.density c positions, c, positions)
    | some best =>
      if best.1 < O.density c positions then some (O.density c positions, c, positions)
      else some best

/-- `find_optimal_packing(sizes, max_width, max_height)`: fold the
best-tracking step over every rotation combination; `none` models the
Python return value (None, None). -/
def find_optimal_packing (O : Oracle) (sizes : List Size) (W H : ℤ) :
    Option (List Size × List Pos) :=
  match (find_rotations sizes).foldl (bestStep O W H) none with
  | none => none
  | some b => some b.2

/-- The retention test of find_sorted_areas:
`a > 0 and a <= area and (threshold is None or a >= threshold * area)`. -/
def keepPred (A : ℤ) (threshold : Option ℚ) (p : List Size × ℤ) : Bool :=
  decide (0 < p.2) && decide (p.2 ≤ A) &&
    (match threshold with
     | none => true
     | some t => decide (t * (A : ℚ) ≤ (p.2 : ℚ)))

/-- Stable insertion of a candidate into a list sorted by area descending:
the new element goes after every strictly larger key and before equal
ones inserted later. -/
def insertByArea (x : List Size × ℤ) : List (List Size × ℤ) → List (List Size × ℤ)
  | [] => [x]
  | y :: ys => if x.2 < y.2 then y :: insertByArea x ys else x :: y :: ys

/-- The stable descending sort by area of `output.sort(key, reverse=True)`,
as a structurally recursive insertion sort. -/
def sortByAreaDesc (l : List (List Size × ℤ)) : List (List Size × ℤ) :=
  l.foldr insertByArea []

/-- The `combs` list of find_sorted_areas: keep-count combinations of the
canonical-shape counter, flattened, the empty selection dropped
(`if len(sz) > 0`). -/
def fsaCombs (sizes : List Size) : List (List Size) :=
  ((pyProduct ((countShapes sizes).map
      (fun p => unique_keep_combinations p.1 p.2))).map
    (fun vs => vs.flatten)).filter (fun sz => !sz.isEmpty)

/-- The `output` list of find_sorted_areas before sorting: each surviving
combination paired with its total area. -/
def fsaKept (sizes : List Size) (A : ℤ) (threshold : Option ℚ) :
    List (List Size × ℤ) :=
  ((fsaCombs sizes).map (fun c => (c, sumArea c))).filter (keepPred A threshold)

/-- `find_sorted_areas(sizes, area, threshold)`: the kept candidates stably
sorted by area descending, returned as the pair of parallel lists
(sizes, areas). -/
def find_sorted_areas (sizes : List Size) (A : ℤ) (threshold : Option ℚ) :
    List (List Size) × List ℤ :=
  ((sortByAreaDesc (fsaKept sizes A threshold)).map Prod.fst,
    (sortByAreaDesc (fsaKept sizes A threshold)).map Prod.snd)

/-- The iteration of find_max_usage: first candidate subset on which
find_optimal_packing succeeds. -/
def firstFeasible (O : Oracle) (W H : ℤ) :
    List (List Size) → Option (List Size × List Pos)
  | [] => none
  | sset :: rest =>
    match find_optimal_packing O sset W H with
    | some r => some r
    | none => firstFeasible O W H rest

/-- `find_max_usage(sizes, width, height, threshold)`: candidates from
find_sorted_areas with budget width * height, tried in order. -/
def find_max_usage (O : Oracle) (sizes : List Size) (W H : ℤ)
    (threshold : Option ℚ) : Option (List Size × List Pos) :=
  firstFeasible O W H (find_sorted_areas sizes (W * H) threshold).1

/-- find_max_usage at its Python default threshold, 0.9. -/
def find_max_usage_default (O : Oracle) (sizes : List Size) (W H : ℤ) :
    Option (List Size × List Pos) :=
  find_max_usage O sizes W H (some (9 / 10))

/-- The pool update of multi_sheet_packing for one placed item: remove the
first exact-orientation match, else the first swapped-orientation match,
else nothing. -/
def removeOne (pool : List Size) (s : Size) : List Size :=
  if s ∈ pool then pool.erase s
  else if swap s ∈ pool then pool.erase (swap s)
  else pool

/-- The pool update for all items of one sheet, in placement order. -/
def removeItems (pool located : List Size) : List Size :=
  located.foldl removeOne pool

/-- The while-loop of multi_sheet_packing, fuelled: returns the sheet list
and the final pool. Each non-terminal iteration consumes at least one pool
item (proved below), so fuel equal to the pool length suffices. -/
def multiSheetLoop (O : Oracle) (W H : ℤ) :
    ℕ → List Size → List (List Size × List Pos) × List Size
  | 0, pool => ([], pool)
  | fuel + 1, pool =>
    if pool.isEmpty then ([], pool)
    else
      match find_max_usage O pool W H none with
      | none => ([], pool)
      | some sheet =>
        let rest := multiSheetLoop O W H fuel (removeItems pool sheet.1)
        (sheet :: rest.1, rest.2)

/-- `multi_sheet_packing(sizes, width, height)`: the function's actual
return value, the sheet list alone (the leftover pool is dropped). -/
def multi_sheet_packing (O : Oracle) (sizes : List Size) (W H : ℤ) :
    List (List Size × List Pos) :=
  (multiSheetLoop O W H sizes.length sizes).1

/-- The multiset of canonical forms of a list of rectangles: the identity
under which an item and its rotation are the same item. -/
def canonMS (l : List Size) : Multiset Size := (l.map canon : List Size)

/-- Expansion of a shape counter back into a list of items, dict order. -/
def expandL (l : List (Size × ℕ)) : List Size :=
  l.flatMap (fun p => List.replicate p.2 p.1)

/-- An oracle on which every placement attempt is infeasible (as rpack is
on any item strictly larger than the bin in both orientations). -/
def noneOracle : Oracle :=
  { pack := fun _ _ _ => none, density := fun _ _ => 0 }

/-- An oracle on which every placement attempt succeeds, with a constant
density score; used to instantiate universally quantified results. -/
def constOracle : Oracle :=
  { pack := fun c _ _ => some (c.map (fun _ => ((0 : ℤ), (0 : ℤ)))),
    density := fun _ _ => 0 }

/-! ### Basic facts about canonical forms -/

theorem swap_swap (s : Size) : swap (swap s) = s := rfl

theorem canon_swap (s : Size) : canon (swap s) = canon s := by
  rcases s with ⟨a, b⟩
  simp only [canon, swap]
  split_ifs <;> simp_all [Prod.ext_iff] <;> omega

theorem canon_cases (s : Size) : canon s = s ∨ canon s = swap s := by
  unfold canon swap
  split_ifs <;> simp

theorem canon_idem (s : Size) : canon (canon s) = canon s := by
  rcases canon_cases s with h | h
  · exact congrArg canon h
  · exact (congrArg canon h).trans (canon_swap s)

theorem canon_eq_cases {x s : Size} (h : canon x = canon s) : x = s ∨ x = swap s := by
  rcases x with ⟨a, b⟩; rcases s with ⟨c, d⟩
  simp only [canon, swap] at h ⊢
  split_ifs at h <;> simp_all [Prod.ext_iff]

theorem canon_of_symm {s : Size} (h : s.1 = s.2) : canon s = s := by
  rcases s with ⟨a, b⟩
  simp only [canon]
  split_ifs <;> simp_all [Prod.ext_iff]

theorem swap_ne_of_rotatable {s : Size} (h : s.1 ≠ s.2) : swap s ≠ s := by
  intro he
  exact h (congrArg Prod.fst he).symm

/-! ### The rotation enumerator on one shape group -/

theorem length_urc (shape : Size) (N : ℕ) :
    (unique_rotation_combinations shape N).length = N + 1 := by
  simp [unique_rotation_combinations]

theorem mem_urc {v : List Size} {k : Size} {N : ℕ}
    (h : v ∈ unique_rotation_combinations k N) :
    v.length = N ∧ ∀ x ∈ v, x = k ∨ x = swap k := by
  unfold unique_rotation_combinations at h
  rcases List.mem_append.1 h with h | h
  · rcases List.mem_map.1 h with ⟨i, hi, rfl⟩
    have hiN := List.mem_range.1 hi
    refine ⟨by simp; omega, ?_⟩
    intro x hx
    rcases List.mem_append.1 hx with hx | hx
    · exact Or.inl (List.eq_of_mem_replicate hx)
    · exact Or.inr (List.eq_of_mem_replicate hx)
  · simp only [List.mem_singleton] at h
    subst h
    refine ⟨by simp, ?_⟩
    intro x hx
    exact Or.inl (List.eq_of_mem_replicate hx)

theorem countP_beq_range (N k : ℕ) :
    List.countP (fun i => i == k) (List.range N) = if k < N then 1 else 0 := by
  induction N with
  | zero => simp
  | succ n ih =>
    rw [List.range_succ, List.countP_append, ih]
    by_cases h1 : k < n
    · have hne : (n == k) = false := by simp; omega
      have h2 : k < n + 1 := by omega
      simp [hne, h1, h2]
    · by_cases h2 : k = n
      · subst h2
        simp [h1]
      · have hne : (n == k) = false := by simp; omega
        have h3 : ¬ k < n + 1 := by omega
        simp [hne, h1, h3]

/-- C1: for every rotatable shape group (canonical shape with width not
equal to height) of multiplicity N, unique_rotation_combinations returns
exactly N+1 orientation sequences; for i = 0..N the i-th sequence is i
copies in original orientation followed by N-i copies in the swapped
orientation; and for each k = 0..N exactly one returned sequence has k
items in original orientation. -/
theorem C1_rotation_enumerator (shape : Size) (N : ℕ) (hrot : shape.1 ≠ shape.2) :
    (unique_rotation_combinations shape N).length = N + 1 ∧
    (∀ i, i ≤ N → (unique_rotation_combinations shape N)[i]? =
      some (List.replicate i shape ++ List.replicate (N - i) (swap shape))) ∧
    (∀ k, k ≤ N → (unique_rotation_combinations shape N).countP
      (fun seq => seq.count shape == k) = 1) := by
  have hswne : (swap shape == shape) = false := by
    simp only [beq_eq_false_iff_ne, ne_eq]
    exact swap_ne_of_rotatable hrot
  refine ⟨length_urc shape N, ?_, ?_⟩
  · intro i hi
    unfold unique_rotation_combinations
    rw [List.getElem?_append]
    by_cases hiN : i < N
    · simp [List.getElem?_map, List.getElem?_range, hiN]
    · have hieq : i = N := by omega
      subst hieq
      simp
  · intro k hk
    unfold unique_rotation_combinations
    rw [List.countP_append, List.countP_map]
    have hcount : ∀ i, List.count shape
        (List.replicate i shape ++ List.replicate (N - i) (swap shape)) = i := by
      intro i
      rw [List.count_append, List.count_replicate, List.count_replicate]
      simp [hswne]
    have hcong : List.countP
        ((fun seq => seq.count shape == k) ∘ (fun i =>
          List.replicate i shape ++ List.replicate (N - i) (swap shape)))
        (List.range N) = List.countP (fun i => i == k) (List.range N) := by
      apply List.countP_congr
      intro i _
      simp [Function.comp, hcount i]
    rw [hcong, countP_beq_range]
    have hlast : List.count shape (List.replicate N shape) = N := by
      simp [List.count_replicate]
    by_cases h1 : k < N
    · have hne : (N == k) = false := by simp; omega
      simp [h1, hlast, hne]
    · have hkN : k = N := by omega
      subst hkN
      simp [h1, hlast]

theorem C1_rotation_enumerator_witness :
    (unique_rotation_combinations ((3 : ℤ), (4 : ℤ)) 2).length = 2 + 1 ∧
    (∀ i, i ≤ 2 → (unique_rotation_combinations ((3 : ℤ), (4 : ℤ)) 2)[i]? =
      some (List.replicate i ((3 : ℤ), (4 : ℤ)) ++
        List.replicate (2 - i) (swap ((3 : ℤ), (4 : ℤ))))) ∧
    (∀ k, k ≤ 2 → (unique_rotation_combinations ((3 : ℤ), (4 : ℤ)) 2).countP
      (fun seq => seq.count ((3 : ℤ), (4 : ℤ)) == k) = 1) :=
  C1_rotation_enumerator ((3 : ℤ), (4 : ℤ)) 2 (by decide)

/-! ### itertools.product -/

theorem mem_pyProduct {α : Type*} : ∀ (ls : List (List α)) (vs : List α),
    vs ∈ pyProduct ls ↔ List.Forall₂ (fun x l => x ∈ l) vs ls
  | [], vs => by
    simp [pyProduct, List.forall₂_nil_right_iff]
  | l :: ls, vs => by
    simp only [pyProduct, List.mem_flatMap, List.mem_map]
    constructor
    · rintro ⟨x, hx, xs, hxs, rfl⟩
      exact List.Forall₂.cons hx ((mem_pyProduct ls xs).1 hxs)
    · intro h
      rcases List.forall₂_cons_right_iff.1 h with ⟨x, xs, hx, hxs, rfl⟩
      exact ⟨x, hx, xs, (mem_pyProduct ls xs).2 hxs, rfl⟩

theorem sum_map_const_nat {α : Type*} (l : List α) (k : ℕ) :
    (l.map (fun _ => k)).sum = l.length * k := by
  induction l with
  | nil => simp
  | cons x xs ih =>
    simp only [List.map_cons, List.sum_cons, List.length_cons, ih]
    ring

theorem length_pyProduct {α : Type*} : ∀ (ls : List (List α)),
    (pyProduct ls).length = (ls.map List.length).prod
  | [] => by simp [pyProduct]
  | l :: ls => by
    simp only [pyProduct, List.length_flatMap, List.map_map, List.map_cons,
      List.prod_cons]
    have hconst : List.map
        (List.length ∘ fun x => List.map (fun xs => x :: xs) (pyProduct ls)) l =
        List.map (fun _ => (pyProduct ls).length) l := by
      apply List.map_congr_left
      intro a _
      simp [Function.comp]
    rw [hconst, length_pyProduct ls, sum_map_const_nat]

/-! ### Dict counting -/

theorem expandL_addCount (l : List (Size × ℕ)) (k : Size) :
    ((expandL (addCount l k) : List Size) : Multiset Size) =
      k ::ₘ ((expandL l : List Size) : Multiset Size) := by
  induction l with
  | nil => simp [addCount, expandL]
  | cons p rest ih =>
    by_cases h : p.1 = k
    · simp only [addCount, h, if_pos]
      simp only [expandL, List.flatMap_cons, List.replicate_succ, ← Multiset.coe_add,
        ← Multiset.cons_coe, Multiset.coe_replicate]
      rw [h, Multiset.cons_add]
    · simp only [addCount, h, if_neg, not_false_iff]
      simp only [expandL, List.flatMap_cons, ← Multiset.coe_add] at ih ⊢
      rw [ih, Multiset.add_cons]

theorem key_mem_addCount {l : List (Size × ℕ)} {k : Size} {q : Size × ℕ}
    (h : q ∈ addCount l k) : q.1 = k ∨ q ∈ l := by
  induction l with
  | nil =>
    simp [addCount] at h
    simp [h]
  | cons p rest ih =>
    by_cases hp : p.1 = k
    · simp only [addCount, hp, if_pos, List.mem_cons] at h
      rcases h with h | h
      · exact Or.inl (by rw [h])
      · exact Or.inr (List.mem_cons_of_mem p h)
    · simp only [addCount, hp, if_neg, not_false_iff, List.mem_cons] at h
      rcases h with h | h
      · exact Or.inr (by rw [h]; exact List.mem_cons_self p rest)
      · rcases ih h with h2 | h2
        · exact Or.inl h2
        · exact Or.inr (List.mem_cons_of_mem p h2)

theorem countShapes_expand_aux (sizes : List Size) : ∀ l0 : List (Size × ℕ),
    ((expandL (sizes.foldl countStep l0) : List Size) : Multiset Size) =
      ((sizes.map canon : List Size) : Multiset Size) +
        ((expandL l0 : List Size) : Multiset Size) := by
  induction sizes with
  | nil => intro l0; simp
  | cons s rest ih =>
    intro l0
    simp only [List.foldl_cons, List.map_cons, ← Multiset.cons_coe]
    rw [show countStep l0 s = addCount l0 (canon s) from rfl,
      ih (addCount l0 (canon s)), expandL_addCount, Multiset.add_cons,
      Multiset.cons_add]

theorem countShapes_expand (sizes : List Size) :
    ((expandL (countShapes sizes) : List Size) : Multiset Size) = canonMS sizes := by
  have h := countShapes_expand_aux sizes []
  simpa [canonMS, expandL] using h

theorem countShapes_keys (sizes : List Size) : ∀ l0 : List (Size × ℕ),
    (∀ q ∈ l0, canon q.1 = q.1) →
    ∀ q ∈ sizes.foldl countStep l0, canon q.1 = q.1 := by
  induction sizes with
  | nil => intro l0 h0; simpa using h0
  | cons s rest ih =>
    intro l0 h0
    simp only [List.foldl_cons]
    refine ih (countStep l0 s) ?_
    intro q hq
    rcases key_mem_addCount hq with h | h
    · rw [h]; exact canon_idem s
    · exact h0 q h

/-! ### The grouping pass of find_rotations -/

theorem groupShapes_expand_aux (sizes : List Size) :
    ∀ acc : List (Size × ℕ) × List (Size × ℕ),
    ((expandL (sizes.foldl groupStep acc).1 : List Size) : Multiset Size) +
      ((expandL (sizes.foldl groupStep acc).2 : List Size) : Multiset Size) =
    ((sizes.map canon : List Size) : Multiset Size) +
      (((expandL acc.1 : List Size) : Multiset Size) +
        ((expandL acc.2 : List Size) : Multiset Size)) := by
  induction sizes with
  | nil => intro acc; simp
  | cons s rest ih =>
    intro acc
    simp only [List.foldl_cons, List.map_cons, ← Multiset.cons_coe]
    rw [ih (groupStep acc s)]
    unfold groupStep
    by_cases h : s.1 = s.2 <;>
      simp only [h, if_pos, if_neg, not_false_iff] <;>
      rw [expandL_addCount] <;>
      simp only [← Multiset.singleton_add, add_comm, add_left_comm, add_assoc]

theorem groupShapes_expand (sizes : List Size) :
    ((expandL (groupShapes sizes).1 : List Size) : Multiset Size) +
      ((expandL (groupShapes sizes).2 : List Size) : Multiset Size) = canonMS sizes := by
  have h := groupShapes_expand_aux sizes ([], [])
  simpa [canonMS, expandL] using h

theorem groupShapes_keys (sizes : List Size) :
    ∀ acc : List (Size × ℕ) × List (Size × ℕ),
    (∀ q ∈ acc.1, canon q.1 = q.1) → (∀ q ∈ acc.2, canon q.1 = q.1) →
    (∀ q ∈ (sizes.foldl groupStep acc).1, canon q.1 = q.1) ∧
      (∀ q ∈ (sizes.foldl groupStep acc).2, canon q.1 = q.1) := by
  induction sizes with
  | nil => intro acc h1 h2; exact ⟨h1, h2⟩
  | cons s rest ih =>
    intro acc h1 h2
    simp only [List.foldl_cons]
    refine ih (groupStep acc s) ?_ ?_ <;> unfold groupStep <;> by_cases h : s.1 = s.2 <;>
      simp only [h, if_pos, if_neg, not_false_iff]
    · exact h1
    · intro q hq
      rcases key_mem_addCount hq with hk | hk
      · rw [hk]; exact canon_idem s
      · exact h1 q hk
    · intro q hq
      rcases key_mem_addCount hq with hk | hk
      · rw [hk]; exact canon_idem s
      · exact h2 q hk
    · exact h2

theorem groupShapes_rotatable_nil (sizes : List Size)
    (hsym : ∀ s ∈ sizes, s.1 = s.2) : (groupShapes sizes).1 = [] := by
  have haux : ∀ (l : List Size) (acc : List (Size × ℕ) × List (Size × ℕ)),
      (∀ s ∈ l, s.1 = s.2) → (l.foldl groupStep acc).1 = acc.1 := by
    intro l
    induction l with
    | nil => intro acc _; rfl
    | cons s rest ih =>
      intro acc h
      simp only [List.foldl_cons]
      rw [ih (groupStep acc s) (fun x hx => h x (List.mem_cons_of_mem s hx))]
      unfold groupStep
      simp [h s (List.mem_cons_self s rest)]
  exact haux sizes ([], []) hsym

/-! ### Claims about find_rotations -/

/-- C8: for every well-formed input, find_rotations returns exactly the
Cartesian product of each rotatable group's N_g+1 per-group sequences,
each combination prefixed by the fixed sequence of symmetric-group items,
so the number of returned combinations is the product over rotatable
groups of N_g + 1. -/
theorem C8_cartesian_structure (sizes : List Size) :
    (find_rotations sizes).length =
      ((groupShapes sizes).1.map (fun p => p.2 + 1)).prod ∧
    ∀ comb, comb ∈ find_rotations sizes ↔
      ∃ vs, List.Forall₂ (fun v p => v ∈ unique_rotation_combinations p.1 p.2)
        vs (groupShapes sizes).1 ∧ comb = prepend sizes ++ vs.flatten := by
  constructor
  · unfold find_rotations
    rw [List.length_map, length_pyProduct, List.map_map]
    congr 1
    apply List.map_congr_left
    intro p _
    simp [Function.comp, length_urc]
  · intro comb
    unfold find_rotations
    simp only [List.mem_map]
    constructor
    · rintro ⟨vs, hvs, rfl⟩
      rw [mem_pyProduct, List.forall₂_map_right_iff] at hvs
      exact ⟨vs, hvs, rfl⟩
    · rintro ⟨vs, hvs, rfl⟩
      refine ⟨vs, ?_, rfl⟩
      rw [mem_pyProduct, List.forall₂_map_right_iff]
      exact hvs

/-- C9: a symmetric shape group never branches: on an input consisting
only of symmetric shapes, find_rotations returns exactly the one
orientation sequence, and that sequence is the input multiset unchanged
(all copies unrotated). -/
theorem C9_symmetric_single (sizes : List Size) (hsym : ∀ s ∈ sizes, s.1 = s.2) :
    find_rotations sizes = [prepend sizes] ∧
    ((prepend sizes : List Size) : Multiset Size) = (sizes : Multiset Size) := by
  have hnil := groupShapes_rotatable_nil sizes hsym
  constructor
  · unfold find_rotations
    rw [hnil]
    simp [pyProduct]
  · have hexp := groupShapes_expand sizes
    rw [hnil] at hexp
    have hz : expandL ([] : List (Size × ℕ)) = [] := rfl
    rw [hz] at hexp
    have hmap : sizes.map canon = sizes := by
      have h1 : sizes.map canon = sizes.map id :=
        List.map_congr_left (fun s hs => canon_of_symm (hsym s hs))
      rw [h1, List.map_id]
    have hpre : (prepend sizes : List Size) = expandL (groupShapes sizes).2 := rfl
    rw [hpre]
    rw [canonMS, hmap] at hexp
    simpa using hexp

theorem C9_symmetric_single_witness :
    find_rotations [((2 : ℤ), (2 : ℤ)), ((3 : ℤ), (3 : ℤ)), ((2 : ℤ), (2 : ℤ))] =
      [prepend [((2 : ℤ), (2 : ℤ)), ((3 : ℤ), (3 : ℤ)), ((2 : ℤ), (2 : ℤ))]] ∧
    ((prepend [((2 : ℤ), (2 : ℤ)), ((3 : ℤ), (3 : ℤ)), ((2 : ℤ), (2 : ℤ))] :
        List Size) : Multiset Size) =
      ([((2 : ℤ), (2 : ℤ)), ((3 : ℤ), (3 : ℤ)), ((2 : ℤ), (2 : ℤ))] : Multiset Size) :=
  C9_symmetric_single _ (by decide)

/-- C7 (amended): the find_rotations entry point fails fast, before any
enumeration, if and only if some input element is not a 2-valued size;
positivity of the dimensions is not checked. -/
theorem C7_input_check_amended (raw : List (List ℤ)) :
    exceptIsError (find_rotations_checked raw) = true ↔ ∃ s ∈ raw, s.length ≠ 2 := by
  unfold find_rotations_checked
  by_cases h : raw.all (fun s => s.length == 2) = true
  · rw [if_pos h]
    simp only [List.all_eq_true, beq_iff_eq] at h
    simp only [exceptIsError, Bool.false_eq_true, false_iff]
    rintro ⟨s, hs, hne⟩
    exact hne (h s hs)
  · rw [if_neg h]
    simp only [exceptIsError, true_iff]
    simp only [List.all_eq_true, beq_iff_eq] at h
    push_neg at h
    exact h

/-- C7, as stated, is false: the input [(0, 5)] is not a positive 2-valued
size, yet find_rotations accepts it (only tuple-ness and arity are
checked). -/
theorem C7_input_check_counterexample :
    ¬ (exceptIsError (find_rotations_checked [[(0 : ℤ), 5]]) = true ↔
        ∃ s ∈ [[(0 : ℤ), 5]], wellFormedPosSize s = false) := by
  decide

/-! ### The stable descending sort -/

theorem insertByArea_perm (x : List Size × ℤ) (l : List (List Size × ℤ)) :
    (insertByArea x l).Perm (x :: l) := by
  induction l with
  | nil => exact List.Perm.refl _
  | cons y ys ih =>
    unfold insertByArea
    by_cases h : x.2 < y.2
    · rw [if_pos h]
      exact (ih.cons y).trans (List.Perm.swap x y ys)
    · rw [if_neg h]

theorem sortByAreaDesc_perm (l : List (List Size × ℤ)) :
    (sortByAreaDesc l).Perm l := by
  induction l with
  | nil => exact List.Perm.refl _
  | cons x xs ih =>
    exact (insertByArea_perm x (sortByAreaDesc xs)).trans (ih.cons x)

theorem insertByArea_sorted {x : List Size × ℤ} {l : List (List Size × ℤ)}
    (hl : l.Pairwise (fun a b => b.2 ≤ a.2)) :
    (insertByArea x l).Pairwise (fun a b => b.2 ≤ a.2) := by
  induction l with
  | nil => simp [insertByArea]
  | cons y ys ih =>
    rcases List.pairwise_cons.1 hl with ⟨hy, hys⟩
    unfold insertByArea
    by_cases h : x.2 < y.2
    · rw [if_pos h]
      refine List.pairwise_cons.2 ⟨?_, ih hys⟩
      intro z hz
      rcases List.mem_cons.1 ((insertByArea_perm x ys).mem_iff.1 hz) with rfl | hzys
      · exact le_of_lt h
      · exact hy z hzys
    · rw [if_neg h]
      push_neg at h
      refine List.pairwise_cons.2 ⟨?_, hl⟩
      intro z hz
      rcases List.mem_cons.1 hz with rfl | hzys
      · exact h
      · exact le_trans (hy z hzys) h

theorem sortByAreaDesc_sorted (l : List (List Size × ℤ)) :
    (sortByAreaDesc l).Pairwise (fun a b => b.2 ≤ a.2) := by
  induction l with
  | nil => simp [sortByAreaDesc]
  | cons x xs ih => exact insertByArea_sorted ih

/-! ### Candidate subsets of find_sorted_areas -/

theorem mem_ukc {v : List Size} {k : Size} {N : ℕ}
    (h : v ∈ unique_keep_combinations k N) :
    ∃ i, i ≤ N ∧ v = List.replicate i k := by
  unfold unique_keep_combinations at h
  rcases List.mem_map.1 h with ⟨i, hi, rfl⟩
  have := List.mem_range.1 hi
  exact ⟨i, by omega, rfl⟩

theorem flatten_le_expandL : ∀ (l : List (Size × ℕ)) (vs : List (List Size)),
    List.Forall₂ (fun v p => v ∈ unique_keep_combinations p.1 p.2) vs l →
    ((vs.flatten : List Size) : Multiset Size) ≤
        ((expandL l : List Size) : Multiset Size) ∧
      ∀ x ∈ vs.flatten, ∃ q ∈ l, x = q.1 := by
  intro l
  induction l with
  | nil =>
    intro vs h
    rw [List.forall₂_nil_right_iff] at h
    subst h
    simp
  | cons p rest ih =>
    intro vs h
    rcases List.forall₂_cons_right_iff.1 h with ⟨v, vs2, hv, hvs2, rfl⟩
    rcases mem_ukc hv with ⟨i, hi, rfl⟩
    have hrec := ih vs2 hvs2
    constructor
    · show ((List.replicate i p.1 ++ vs2.flatten : List Size) : Multiset Size) ≤ _
      have hEL : expandL (p :: rest) = List.replicate p.2 p.1 ++ expandL rest := rfl
      rw [hEL, ← Multiset.coe_add, ← Multiset.coe_add]
      refine add_le_add ?_ hrec.1
      rw [Multiset.coe_replicate, Multiset.coe_replicate]
      exact (Multiset.replicate_le_replicate p.1).2 hi
    · intro x hx
      rcases List.mem_append.1 hx with hx | hx
      · exact ⟨p, List.mem_cons_self p rest, (List.eq_of_mem_replicate hx)⟩
      · rcases hrec.2 x hx with ⟨q, hq, rfl⟩
        exact ⟨q, List.mem_cons_of_mem p hq, rfl⟩

theorem mem_fsaCombs {sizes : List Size} {c : List Size} (hc : c ∈ fsaCombs sizes) :
    c ≠ [] ∧ ((c : List Size) : Multiset Size) ≤ canonMS sizes ∧
      ∀ x ∈ c, canon x = x := by
  unfold fsaCombs at hc
  rcases List.mem_filter.1 hc with ⟨hm, hne⟩
  rcases List.mem_map.1 hm with ⟨vs, hvs, rfl⟩
  rw [mem_pyProduct, List.forall₂_map_right_iff] at hvs
  have h2 := flatten_le_expandL (countShapes sizes) vs hvs
  have hkeys := countShapes_keys sizes [] (by simp)
  refine ⟨by simpa using hne, ?_, ?_⟩
  · rw [← countShapes_expand sizes]
    exact h2.1
  · intro x hx
    rcases h2.2 x hx with ⟨q, hq, rfl⟩
    exact hkeys q hq

theorem canonMS_eq_coe {l : List Size} (h : ∀ x ∈ l, canon x = x) :
    canonMS l = (l : Multiset Size) := by
  unfold canonMS
  rw [show l.map canon = l from (List.map_congr_left h).trans (List.map_id l)]

theorem fsa_subset_pool {sizes : List Size} {A : ℤ} {threshold : Option ℚ}
    {c : List Size} (hc : c ∈ (find_sorted_areas sizes A threshold).1) :
    c ≠ [] ∧ canonMS c ≤ canonMS sizes := by
  unfold find_sorted_areas at hc
  simp only [List.mem_map] at hc
  rcases hc with ⟨p, hp, rfl⟩
  have hp2 : p ∈ fsaKept sizes A threshold := (sortByAreaDesc_perm _).mem_iff.1 hp
  unfold fsaKept at hp2
  rcases List.mem_filter.1 hp2 with ⟨hm, _⟩
  rcases List.mem_map.1 hm with ⟨c0, hc0, rfl⟩
  rcases mem_fsaCombs hc0 with ⟨hne, hle, hcanon⟩
  exact ⟨hne, by rw [canonMS_eq_coe hcanon]; exact hle⟩

/-- C6: for every input, budget A and optional threshold t, the subset
enumerator returns parallel lists sorted non-increasing by total area;
every candidate's recorded area is its total area and satisfies
0 < a ≤ A and, when t is given, t*A ≤ a; the empty combination never
appears. (The function is total: when nothing qualifies it returns the
empty pair of lists, not an error.) -/
theorem fsa_areas_sorted (sizes : List Size) (A : ℤ) (threshold : Option ℚ) :
    (find_sorted_areas sizes A threshold).2.Pairwise (fun a b => b ≤ a) := by
  unfold find_sorted_areas
  exact List.Pairwise.map Prod.snd (fun a b h => h) (sortByAreaDesc_sorted _)

theorem C6_subset_enumerator (sizes : List Size) (A : ℤ) (threshold : Option ℚ) :
    (find_sorted_areas sizes A threshold).2.Pairwise (fun a b => b ≤ a) ∧
    (find_sorted_areas sizes A threshold).1.length =
      (find_sorted_areas sizes A threshold).2.length ∧
    ∀ p ∈ (find_sorted_areas sizes A threshold).1.zip
        (find_sorted_areas sizes A threshold).2,
      p.2 = sumArea p.1 ∧ 0 < p.2 ∧ p.2 ≤ A ∧
        (∀ t, threshold = some t → t * (A : ℚ) ≤ (p.2 : ℚ)) ∧ p.1 ≠ [] := by
  refine ⟨fsa_areas_sorted sizes A threshold, by simp [find_sorted_areas], ?_⟩
  · intro p hp
    unfold find_sorted_areas at hp
    rw [List.zip_map' Prod.fst Prod.snd] at hp
    rcases List.mem_map.1 hp with ⟨q, hq, rfl⟩
    have hq2 : q ∈ fsaKept sizes A threshold := (sortByAreaDesc_perm _).mem_iff.1 hq
    unfold fsaKept at hq2
    rcases List.mem_filter.1 hq2 with ⟨hm, hkeep⟩
    rcases List.mem_map.1 hm with ⟨c0, hc0, rfl⟩
    rcases mem_fsaCombs hc0 with ⟨hne, _, _⟩
    simp only [keepPred, Bool.and_eq_true, decide_eq_true_eq] at hkeep
    refine ⟨rfl, hkeep.1.1, hkeep.1.2, ?_, hne⟩
    intro t ht
    subst ht
    simpa using hkeep.2

/-! ### The best-tracking fold of find_optimal_packing -/

theorem bestStep_mono (O : Oracle) (W H : ℤ)
    (acc : Option (ℚ × List Size × List Pos)) (c1 : List Size)
    {b : ℚ × List Size × List Pos} (h : acc = some b) :
    ∃ b2, bestStep O W H acc c1 = some b2 ∧ b.1 ≤ b2.1 := by
  subst h
  unfold bestStep
  cases hpk : O.pack c1 W H with
  | none => exact ⟨b, rfl, le_refl _⟩
  | some pos =>
    by_cases hlt : b.1 < O.density c1 pos
    · exact ⟨(O.density c1 pos, c1, pos), by simp [hlt], le_of_lt hlt⟩
    · exact ⟨b, by simp [hlt], le_refl _⟩

theorem bestStep_ge_density (O : Oracle) (W H : ℤ)
    (acc : Option (ℚ × List Size × List Pos)) {c1 : List Size} {p1 : List Pos}
    (h : O.pack c1 W H = some p1) :
    ∃ b2, bestStep O W H acc c1 = some b2 ∧ O.density c1 p1 ≤ b2.1 := by
  unfold bestStep
  rw [h]
  cases acc with
  | none => exact ⟨(O.density c1 p1, c1, p1), rfl, le_refl _⟩
  | some b =>
    by_cases hlt : b.1 < O.density c1 p1
    · exact ⟨(O.density c1 p1, c1, p1), by simp [hlt], le_refl _⟩
    · exact ⟨b, by simp [hlt], le_of_not_lt hlt⟩

theorem bestStep_eq_none (O : Oracle) (W H : ℤ)
    (acc : Option (ℚ × List Size × List Pos)) (c1 : List Size)
    (h : bestStep O W H acc c1 = none) : acc = none ∧ O.pack c1 W H = none := by
  unfold bestStep at h
  cases hpk : O.pack c1 W H with
  | none => rw [hpk] at h; exact ⟨h, rfl⟩
  | some pos =>
    rw [hpk] at h
    cases acc with
    | none => exact absurd h (by simp)
    | some b =>
      have h2 : (if b.1 < O.density c1 pos then
          some (O.density c1 pos, c1, pos) else some b) = none := h
      split_ifs at h2

theorem bestStep_eq_some (O : Oracle) (W H : ℤ)
    (acc : Option (ℚ × List Size × List Pos)) (c1 : List Size)
    {r : ℚ × List Size × List Pos} (h : bestStep O W H acc c1 = some r) :
    (acc = some r ∧ ∀ p2, O.pack c1 W H = some p2 → O.density c1 p2 ≤ r.1) ∨
    (O.pack c1 W H = some r.2.2 ∧ r.2.1 = c1 ∧ r.1 = O.density c1 r.2.2 ∧
      ∀ b, acc = some b → b.1 < r.1) := by
  unfold bestStep at h
  cases hpk : O.pack c1 W H with
  | none =>
    rw [hpk] at h
    refine Or.inl ⟨h, ?_⟩
    intro p2 hp2
    exact absurd hp2 (by simp)
  | some pos =>
    rw [hpk] at h
    cases acc with
    | none =>
      injection h with h
      subst h
      refine Or.inr ⟨rfl, rfl, rfl, ?_⟩
      intro b hb
      exact absurd hb (by simp)
    | some b =>
      have h2 : (if b.1 < O.density c1 pos then
          some (O.density c1 pos, c1, pos) else some b) = some r := h
      by_cases hlt : b.1 < O.density c1 pos
      · rw [if_pos hlt] at h2
        injection h2 with h2
        subst h2
        refine Or.inr ⟨rfl, rfl, rfl, ?_⟩
        intro b2 hb2
        injection hb2 with hb2
        subst hb2
        exact hlt
      · rw [if_neg hlt] at h2
        injection h2 with h2
        subst h2
        refine Or.inl ⟨rfl, ?_⟩
        intro p2 hp2
        injection hp2 with hp2
        subst hp2
        exact le_of_not_lt hlt

theorem foldBest_spec (O : Oracle) (W H : ℤ) :
    ∀ (l : List (List Size)) (acc : Option (ℚ × List Size × List Pos)),
    (l.foldl (bestStep O W H) acc = none →
      acc = none ∧ ∀ c ∈ l, O.pack c W H = none) ∧
    (∀ d c p, l.foldl (bestStep O W H) acc = some (d, c, p) →
      ((acc = some (d, c, p) ∧ ∀ c2 ∈ l, ∀ p2, O.pack c2 W H = some p2 →
          O.density c2 p2 ≤ d) ∨
        (∃ l₁ l₂, l = l₁ ++ c :: l₂ ∧ O.pack c W H = some p ∧
          d = O.density c p ∧
          (∀ b, acc = some b → b.1 < d) ∧
          (∀ c2 ∈ l₁, ∀ p2, O.pack c2 W H = some p2 → O.density c2 p2 < d) ∧
          (∀ c2 ∈ l₂, ∀ p2, O.pack c2 W H = some p2 → O.density c2 p2 ≤ d)))) := by
  intro l
  induction l with
  | nil =>
    intro acc
    refine ⟨fun h => ⟨h, by simp⟩, fun d c p h => Or.inl ⟨h, by simp⟩⟩
  | cons c1 rest ih =>
    intro acc
    constructor
    · intro h
      rw [List.foldl_cons] at h
      rcases (ih (bestStep O W H acc c1)).1 h with ⟨hstep, hrest⟩
      rcases bestStep_eq_none O W H acc c1 hstep with ⟨hacc, hpk⟩
      refine ⟨hacc, ?_⟩
      intro c hc
      rcases List.mem_cons.1 hc with rfl | hc
      · exact hpk
      · exact hrest c hc
    · intro d c p h
      rw [List.foldl_cons] at h
      rcases (ih (bestStep O W H acc c1)).2 d c p h with
        ⟨hstep, hrest⟩ | ⟨l₁, l₂, heq, hpk, hd, haccb, hbefore, hafter⟩
      · -- the accumulator after the first step already holds the result
        rcases bestStep_eq_some O W H acc c1 hstep with
          ⟨hacc, hc1⟩ | ⟨hpk1, hc1, hd1, haccb1⟩
        · left
          refine ⟨hacc, ?_⟩
          intro c2 hc2 p2 hp2
          rcases List.mem_cons.1 hc2 with rfl | hc2
          · exact hc1 p2 hp2
          · exact hrest c2 hc2 p2 hp2
        · right
          -- the first element is the winner: c = c1 and d is its density
          have hc : c = c1 := hc1
          have hpk2 : O.pack c1 W H = some p := hpk1
          have hd2 : d = O.density c1 p := hd1
          subst hc
          refine ⟨[], rest, rfl, hpk2, hd2, haccb1, by simp, ?_⟩
          intro c2 hc2 p2 hp2
          exact hrest c2 hc2 p2 hp2
      · -- the result was found strictly inside the rest of the list
        right
        refine ⟨c1 :: l₁, l₂, by rw [heq]; rfl, hpk, hd, ?_, ?_, hafter⟩
        · intro b hb
          rcases bestStep_mono O W H acc c1 hb with ⟨b2, hb2, hle⟩
          exact lt_of_le_of_lt hle (haccb b2 hb2)
        · intro c2 hc2 p2 hp2
          rcases List.mem_cons.1 hc2 with rfl | hc2
          · rcases bestStep_ge_density O W H acc hp2 with ⟨b2, hb2, hle⟩
            exact lt_of_le_of_lt hle (haccb b2 hb2)
          · exact hbefore c2 hc2 p2 hp2

/-- C4: for every oracle, subset and bin, Single-Bin Search returns a
feasible packing whose density is maximal over all rotation combinations
the oracle accepts, and the returned combination is the first one
attaining that density (every feasible combination strictly before it has
strictly smaller density, so ties keep the first seen); when every
rotation combination is infeasible it returns the explicit empty result
(None, None) and it does so only then. -/
theorem C4_single_bin_search (O : Oracle) (sizes : List Size) (W H : ℤ) :
    (find_optimal_packing O sizes W H = none ↔
      ∀ c ∈ find_rotations sizes, O.pack c W H = none) ∧
    ∀ c p, find_optimal_packing O sizes W H = some (c, p) →
      O.pack c W H = some p ∧
      (∀ c2 ∈ find_rotations sizes, ∀ p2, O.pack c2 W H = some p2 →
        O.density c2 p2 ≤ O.density c p) ∧
      ∃ l₁ l₂, find_rotations sizes = l₁ ++ c :: l₂ ∧
        ∀ c2 ∈ l₁, ∀ p2, O.pack c2 W H = some p2 →
          O.density c2 p2 < O.density c p := by
  have hspec := foldBest_spec O W H (find_rotations sizes) none
  constructor
  · constructor
    · intro h
      unfold find_optimal_packing at h
      cases hfold : (find_rotations sizes).foldl (bestStep O W H) none with
      | none => exact (hspec.1 hfold).2
      | some b => rw [hfold] at h; cases h
    · intro h
      unfold find_optimal_packing
      cases hfold : (find_rotations sizes).foldl (bestStep O W H) none with
      | none => rfl
      | some b =>
        rcases hspec.2 b.1 b.2.1 b.2.2 (by rw [hfold]) with ⟨habs, _⟩ | ⟨l₁, l₂, heq, hpk, _⟩
        · cases habs
        · have hmem : b.2.1 ∈ find_rotations sizes := by
            rw [heq]
            exact List.mem_append_right l₁ (List.mem_cons_self _ _)
          rw [h b.2.1 hmem] at hpk
          cases hpk
  · intro c p h
    unfold find_optimal_packing at h
    cases hfold : (find_rotations sizes).foldl (bestStep O W H) none with
    | none => rw [hfold] at h; cases h
    | some b =>
      rw [hfold] at h
      injection h with h
      rcases hspec.2 b.1 b.2.1 b.2.2 (by rw [hfold]) with ⟨habs, _⟩ |
        ⟨l₁, l₂, heq, hpk, hd, _, hbefore, hafter⟩
      · cases habs
      · have hc : b.2.1 = c := congrArg Prod.fst h
        have hp : b.2.2 = p := congrArg Prod.snd h
        subst hc
        subst hp
        have hdd : b.1 = O.density b.2.1 b.2.2 := by rw [hd]
        refine ⟨hpk, ?_, l₁, l₂, heq, ?_⟩
        · intro c2 hc2 p2 hp2
          rw [heq] at hc2
          rcases List.mem_append.1 hc2 with hc2 | hc2
          · exact le_of_lt (by rw [← hdd]; exact hbefore c2 hc2 p2 hp2)
          · rcases List.mem_cons.1 hc2 with rfl | hc2
            · rw [hp2] at hpk
              injection hpk with hpk
              rw [hpk]
            · rw [← hdd]
              exact hafter c2 hc2 p2 hp2
        · intro c2 hc2 p2 hp2
          rw [← hdd]
          exact hbefore c2 hc2 p2 hp2

/-! ### Max-Usage Search -/

theorem firstFeasible_none (O : Oracle) (W H : ℤ) : ∀ (l : List (List Size)),
    firstFeasible O W H l = none ↔
      ∀ sset ∈ l, find_optimal_packing O sset W H = none := by
  intro l
  induction l with
  | nil => simp [firstFeasible]
  | cons s rest ih =>
    unfold firstFeasible
    cases hopt : find_optimal_packing O s W H with
    | some r =>
      simp only [false_iff, not_forall]
      constructor
      · intro h
        cases h
      · intro h
        exact absurd (h s (List.mem_cons_self s rest)) (by simp [hopt])
    | none =>
      rw [ih]
      constructor
      · intro h sset hss
        rcases List.mem_cons.1 hss with rfl | hss
        · exact hopt
        · exact h sset hss
      · intro h sset hss
        exact h sset (List.mem_cons_of_mem s hss)

theorem firstFeasible_some (O : Oracle) (W H : ℤ) :
    ∀ (l : List (List Size)) (r : List Size × List Pos),
    firstFeasible O W H l = some r →
    ∃ l₁ sset l₂, l = l₁ ++ sset :: l₂ ∧
      (∀ s2 ∈ l₁, find_optimal_packing O s2 W H = none) ∧
      find_optimal_packing O sset W H = some r := by
  intro l
  induction l with
  | nil => intro r h; cases h
  | cons s rest ih =>
    intro r h
    unfold firstFeasible at h
    cases hopt : find_optimal_packing O s W H with
    | some r0 =>
      rw [hopt] at h
      injection h with h
      subst h
      exact ⟨[], s, rest, rfl, by simp, hopt⟩
    | none =>
      rw [hopt] at h
      rcases ih r h with ⟨l₁, sset, l₂, heq, hnone, hsome⟩
      refine ⟨s :: l₁, sset, l₂, by rw [heq]; rfl, ?_, hsome⟩
      intro s2 hs2
      rcases List.mem_cons.1 hs2 with rfl | hs2
      · exact hopt
      · exact hnone s2 hs2

/-- C5: Max-Usage Search enumerates candidate subsets through
find_sorted_areas with area budget W*H (the entry point defaults the
coverage threshold to 0.9), iterates them in the returned
descending-total-area order, returns the packing of the first subset on
which Single-Bin Search succeeds (all earlier subsets having failed), and
returns the explicit empty result (None, None) exactly when no subset
yields a feasible packing. -/
theorem C5_max_usage_search (O : Oracle) (sizes : List Size) (W H : ℤ)
    (threshold : Option ℚ) :
    find_max_usage_default O sizes W H = find_max_usage O sizes W H (some (9 / 10)) ∧
    (find_sorted_areas sizes (W * H) threshold).2.Pairwise (fun a b => b ≤ a) ∧
    (find_max_usage O sizes W H threshold = none ↔
      ∀ sset ∈ (find_sorted_areas sizes (W * H) threshold).1,
        find_optimal_packing O sset W H = none) ∧
    ∀ r, find_max_usage O sizes W H threshold = some r →
      ∃ l₁ sset l₂,
        (find_sorted_areas sizes (W * H) threshold).1 = l₁ ++ sset :: l₂ ∧
        (∀ s2 ∈ l₁, find_optimal_packing O s2 W H = none) ∧
        find_optimal_packing O sset W H = some r := by
  refine ⟨rfl, fsa_areas_sorted sizes (W * H) threshold, ?_, ?_⟩
  · exact firstFeasible_none O W H _
  · intro r h
    exact firstFeasible_some O W H _ r h

/-! ### Multiset bookkeeping for the allocator -/

theorem canonMS_append (l1 l2 : List Size) :
    canonMS (l1 ++ l2) = canonMS l1 + canonMS l2 := by
  unfold canonMS
  rw [List.map_append]
  exact (Multiset.coe_add _ _).symm

theorem canonMS_cons (s : Size) (l : List Size) :
    canonMS (s :: l) = canon s ::ₘ canonMS l := by
  unfold canonMS
  rw [List.map_cons, ← Multiset.cons_coe]

theorem mem_expandL {l : List (Size × ℕ)} {x : Size} (h : x ∈ expandL l) :
    ∃ q ∈ l, x = q.1 := by
  unfold expandL at h
  rcases List.mem_flatMap.1 h with ⟨q, hq, hx⟩
  exact ⟨q, hq, List.eq_of_mem_replicate hx⟩

theorem canonMS_flatten_urc : ∀ (rot : List (Size × ℕ)) (vs : List (List Size)),
    List.Forall₂ (fun v p => v ∈ unique_rotation_combinations p.1 p.2) vs rot →
    (∀ q ∈ rot, canon q.1 = q.1) →
    canonMS vs.flatten = ((expandL rot : List Size) : Multiset Size) := by
  intro rot
  induction rot with
  | nil =>
    intro vs h _
    rw [List.forall₂_nil_right_iff] at h
    subst h
    rfl
  | cons q rest ih =>
    intro vs h hkeys
    rcases List.forall₂_cons_right_iff.1 h with ⟨v, vs2, hv, hvs2, rfl⟩
    rcases mem_urc hv with ⟨hlen, hmem⟩
    have h1 : (v :: vs2).flatten = v ++ vs2.flatten := rfl
    rw [h1, canonMS_append]
    have h2 : canonMS v = Multiset.replicate q.2 (canon q.1) := by
      unfold canonMS
      have h3 : ∀ b ∈ v.map canon, b = canon q.1 := by
        intro b hb
        rcases List.mem_map.1 hb with ⟨x, hx, rfl⟩
        rcases hmem x hx with rfl | rfl
        · rfl
        · exact canon_swap _
      rw [List.eq_replicate_of_mem h3, List.length_map, hlen,
        Multiset.coe_replicate]
    rw [h2, hkeys q (List.mem_cons_self q rest),
      ih vs2 hvs2 (fun x hx => hkeys x (List.mem_cons_of_mem q hx))]
    have h4 : expandL (q :: rest) = List.replicate q.2 q.1 ++ expandL rest := rfl
    rw [h4, ← Multiset.coe_add, Multiset.coe_replicate]

theorem find_rotations_canonMS {sset comb : List Size}
    (h : comb ∈ find_rotations sset) : canonMS comb = canonMS sset := by
  unfold find_rotations at h
  rcases List.mem_map.1 h with ⟨vs, hvs, rfl⟩
  rw [mem_pyProduct, List.forall₂_map_right_iff] at hvs
  have hkeys := groupShapes_keys sset ([], []) (by simp) (by simp)
  have hflat := canonMS_flatten_urc (groupShapes sset).1 vs hvs hkeys.1
  rw [canonMS_append, hflat]
  have h2 : canonMS (prepend sset) =
      ((expandL (groupShapes sset).2 : List Size) : Multiset Size) := by
    have hpre : prepend sset = expandL (groupShapes sset).2 := rfl
    rw [hpre]
    apply canonMS_eq_coe
    intro x hx
    rcases mem_expandL hx with ⟨q, hq, rfl⟩
    exact hkeys.2 q hq
  rw [h2, ← groupShapes_expand sset]
  exact add_comm _ _

theorem fop_mem {O : Oracle} {sset : List Size} {W H : ℤ} {c : List Size}
    {p : List Pos} (h : find_optimal_packing O sset W H = some (c, p)) :
    c ∈ find_rotations sset := by
  unfold find_optimal_packing at h
  cases hfold : (find_rotations sset).foldl (bestStep O W H) none with
  | none => rw [hfold] at h; cases h
  | some b =>
    rw [hfold] at h
    injection h with h
    rcases (foldBest_spec O W H (find_rotations sset) none).2 b.1 b.2.1 b.2.2
      (by rw [hfold]) with ⟨habs, _⟩ | ⟨l₁, l₂, heq, _⟩
    · cases habs
    · have hc : b.2.1 = c := congrArg Prod.fst h
      rw [← hc, heq]
      exact List.mem_append_right l₁ (List.mem_cons_self _ _)

theorem find_max_usage_located {O : Oracle} {pool : List Size} {W H : ℤ}
    {threshold : Option ℚ} {loc : List Size} {pos : List Pos}
    (h : find_max_usage O pool W H threshold = some (loc, pos)) :
    loc ≠ [] ∧ canonMS loc ≤ canonMS pool := by
  unfold find_max_usage at h
  rcases firstFeasible_some O W H _ _ h with ⟨l₁, sset, l₂, heq, _, hopt⟩
  have hmem : sset ∈ (find_sorted_areas pool (W * H) threshold).1 := by
    rw [heq]
    exact List.mem_append_right l₁ (List.mem_cons_self _ _)
  rcases fsa_subset_pool hmem with ⟨hne, hle⟩
  have hrot : loc ∈ find_rotations sset := fop_mem hopt
  have hcm : canonMS loc = canonMS sset := find_rotations_canonMS hrot
  constructor
  · intro hnil
    subst hnil
    have h0 : canonMS sset = 0 := hcm.symm
    unfold canonMS at h0
    rw [Multiset.coe_eq_zero, List.map_eq_nil_iff] at h0
    exact hne h0
  · rw [hcm]
    exact hle

/-! ### Pool removal -/

theorem perm_cons_erase_beq {x : Size} : ∀ {pool : List Size}, x ∈ pool →
    pool.Perm (x :: pool.erase x) := by
  intro pool
  induction pool with
  | nil => intro h; cases h
  | cons a t ih =>
    intro hx
    rw [List.erase_cons]
    by_cases hb : (a == x) = true
    · rw [if_pos hb]
      rw [beq_iff_eq] at hb
      subst hb
      exact List.Perm.refl _
    · rw [if_neg hb]
      have hxa : x ∈ t := by
        rcases List.mem_cons.1 hx with rfl | h
        · exact absurd (by simp) hb
        · exact h
      exact ((ih hxa).cons a).trans (List.Perm.swap x a (t.erase x))

theorem canonMS_erase {pool : List Size} {x : Size} (hx : x ∈ pool) :
    canonMS (pool.erase x) = (canonMS pool).erase (canon x) := by
  have hperm : pool.Perm (x :: pool.erase x) := perm_cons_erase_beq hx
  have hcons : canonMS pool = canon x ::ₘ canonMS (pool.erase x) := by
    unfold canonMS
    rw [Multiset.cons_coe, Multiset.coe_eq_coe]
    have := hperm.map canon
    simpa using this
  rw [hcons, Multiset.erase_cons_head]

theorem removeOne_spec {pool : List Size} {s : Size}
    (h : canon s ∈ canonMS pool) :
    canonMS (removeOne pool s) = (canonMS pool).erase (canon s) ∧
      (removeOne pool s).length + 1 = pool.length := by
  have hx : ∃ x ∈ pool, canon x = canon s := by
    unfold canonMS at h
    rw [Multiset.mem_coe] at h
    exact List.mem_map.1 h
  unfold removeOne
  by_cases h1 : s ∈ pool
  · rw [if_pos h1]
    have hpos : 0 < pool.length := List.length_pos_of_mem h1
    refine ⟨canonMS_erase h1, ?_⟩
    rw [List.length_erase_of_mem h1]
    omega
  · rw [if_neg h1]
    have h2 : swap s ∈ pool := by
      rcases hx with ⟨x, hxp, hcx⟩
      rcases canon_eq_cases hcx with rfl | rfl
      · exact absurd hxp h1
      · exact hxp
    rw [if_pos h2]
    have hpos : 0 < pool.length := List.length_pos_of_mem h2
    refine ⟨?_, ?_⟩
    · rw [canonMS_erase h2, canon_swap]
    · rw [List.length_erase_of_mem h2]
      omega

theorem removeItems_spec : ∀ (loc pool : List Size),
    canonMS loc ≤ canonMS pool →
    canonMS (removeItems pool loc) + canonMS loc = canonMS pool ∧
      (removeItems pool loc).length + loc.length = pool.length := by
  intro loc
  induction loc with
  | nil =>
    intro pool _
    have h0 : removeItems pool [] = pool := rfl
    rw [h0]
    have h1 : canonMS ([] : List Size) = 0 := rfl
    rw [h1]
    exact ⟨add_zero _, by simp⟩
  | cons s rest ih =>
    intro pool h
    rw [canonMS_cons] at h
    have hs : canon s ∈ canonMS pool :=
      Multiset.mem_of_le h (Multiset.mem_cons_self _ _)
    rcases removeOne_spec hs with ⟨he, hl⟩
    have hrest : canonMS rest ≤ canonMS (removeOne pool s) := by
      rw [he, ← Multiset.erase_cons_head (canon s) (canonMS rest)]
      exact Multiset.erase_le_erase _ h
    have hstep : removeItems pool (s :: rest) =
        removeItems (removeOne pool s) rest := rfl
    rw [hstep]
    rcases ih (removeOne pool s) hrest with ⟨ih1, ih2⟩
    constructor
    · rw [canonMS_cons, Multiset.add_cons]
      have hp : canonMS pool = canon s ::ₘ canonMS (removeOne pool s) := by
        rw [he, Multiset.cons_erase hs]
      rw [hp, ih1]
    · have hlen : (rest : List Size).length + 1 = (s :: rest).length := by simp
      omega

/-! ### The allocator loop -/

theorem multiSheetLoop_succ (O : Oracle) (W H : ℤ) (fuel : ℕ) (pool : List Size) :
    multiSheetLoop O W H (fuel + 1) pool =
      if pool.isEmpty then ([], pool)
      else
        match find_max_usage O pool W H none with
        | none => ([], pool)
        | some sheet =>
          (sheet :: (multiSheetLoop O W H fuel (removeItems pool sheet.1)).1,
            (multiSheetLoop O W H fuel (removeItems pool sheet.1)).2) := rfl

theorem pool_shrinks {O : Oracle} {pool : List Size} {W H : ℤ}
    {sheet : List Size × List Pos}
    (h : find_max_usage O pool W H none = some sheet) :
    sheet.1 ≠ [] ∧ (removeItems pool sheet.1).length < pool.length := by
  have hloc := find_max_usage_located
    (show find_max_usage O pool W H none = some (sheet.1, sheet.2) from by rw [h])
  rcases removeItems_spec sheet.1 pool hloc.2 with ⟨_, hlen⟩
  refine ⟨hloc.1, ?_⟩
  have hne : sheet.1.length ≠ 0 := by
    simpa [List.length_eq_zero] using hloc.1
  omega

theorem multiSheetLoop_empty (O : Oracle) (W H : ℤ) (fuel : ℕ)
    (pool : List Size) (hp : pool.isEmpty = true) :
    multiSheetLoop O W H (fuel + 1) pool = ([], pool) := by
  rw [multiSheetLoop_succ, if_pos hp]

theorem multiSheetLoop_none (O : Oracle) (W H : ℤ) (fuel : ℕ)
    (pool : List Size) (hp : ¬ pool.isEmpty = true)
    (hmu : find_max_usage O pool W H none = none) :
    multiSheetLoop O W H (fuel + 1) pool = ([], pool) := by
  rw [multiSheetLoop_succ, if_neg hp, hmu]

theorem multiSheetLoop_step (O : Oracle) (W H : ℤ) (fuel : ℕ)
    (pool : List Size) (sheet : List Size × List Pos)
    (hp : ¬ pool.isEmpty = true)
    (hmu : find_max_usage O pool W H none = some sheet) :
    multiSheetLoop O W H (fuel + 1) pool =
      (sheet :: (multiSheetLoop O W H fuel (removeItems pool sheet.1)).1,
        (multiSheetLoop O W H fuel (removeItems pool sheet.1)).2) := by
  rw [multiSheetLoop_succ, if_neg hp, hmu]

theorem multiSheetLoop_conserve (O : Oracle) (W H : ℤ) :
    ∀ (fuel : ℕ) (pool : List Size),
    canonMS (((multiSheetLoop O W H fuel pool).1.map Prod.fst).flatten) +
      canonMS (multiSheetLoop O W H fuel pool).2 = canonMS pool := by
  intro fuel
  induction fuel with
  | zero =>
    intro pool
    show canonMS ((([] : List (List Size × List Pos)).map Prod.fst).flatten) +
      canonMS pool = canonMS pool
    rw [show canonMS ((([] : List (List Size × List Pos)).map
      Prod.fst).flatten) = 0 from rfl, zero_add]
  | succ n ih =>
    intro pool
    by_cases hp : pool.isEmpty = true
    · rw [multiSheetLoop_empty O W H n pool hp]
      show canonMS ((([] : List (List Size × List Pos)).map Prod.fst).flatten) +
        canonMS pool = canonMS pool
      rw [show canonMS ((([] : List (List Size × List Pos)).map
        Prod.fst).flatten) = 0 from rfl, zero_add]
    · cases hmu : find_max_usage O pool W H none with
      | none =>
        rw [multiSheetLoop_none O W H n pool hp hmu]
        show canonMS ((([] : List (List Size × List Pos)).map Prod.fst).flatten) +
          canonMS pool = canonMS pool
        rw [show canonMS ((([] : List (List Size × List Pos)).map
          Prod.fst).flatten) = 0 from rfl, zero_add]
      | some sheet =>
        rw [multiSheetLoop_step O W H n pool sheet hp hmu]
        have hloc := find_max_usage_located
          (show find_max_usage O pool W H none = some (sheet.1, sheet.2) from
            by rw [hmu])
        rcases removeItems_spec sheet.1 pool hloc.2 with ⟨hc, _⟩
        show canonMS (((sheet :: (multiSheetLoop O W H n
              (removeItems pool sheet.1)).1).map Prod.fst).flatten) +
            canonMS (multiSheetLoop O W H n (removeItems pool sheet.1)).2 =
          canonMS pool
        have hflat : (((sheet :: (multiSheetLoop O W H n
              (removeItems pool sheet.1)).1).map Prod.fst).flatten) =
            sheet.1 ++ (((multiSheetLoop O W H n
              (removeItems pool sheet.1)).1.map Prod.fst).flatten) := rfl
        rw [hflat, canonMS_append, add_assoc,
          ih (removeItems pool sheet.1), add_comm]
        exact hc

/-- C2: for every oracle and run of the Multi-Sheet Allocator, the
canonical multiset (an item and its swapped orientation identified) of all
items placed across all returned sheets, plus the final leftover pool,
equals the input multiset; multi_sheet_packing itself returns the sheet
list of that loop. -/
theorem C2_conservation (O : Oracle) (sizes : List Size) (W H : ℤ) :
    multi_sheet_packing O sizes W H =
      (multiSheetLoop O W H sizes.length sizes).1 ∧
    canonMS (((multiSheetLoop O W H sizes.length sizes).1.map
        Prod.fst).flatten) +
      canonMS (multiSheetLoop O W H sizes.length sizes).2 = canonMS sizes :=
  ⟨rfl, multiSheetLoop_conserve O W H sizes.length sizes⟩

/-- C10: the allocator terminates: whenever find_max_usage succeeds on the
current pool the placed subset is non-empty and removing it strictly
shrinks the pool, so the fuelled loop is already stable at fuel equal to
the pool size (the Python while-loop ends after at most len(sizes)
iterations). -/
theorem C10_termination (O : Oracle) (W H : ℤ) :
    (∀ pool (sheet : List Size × List Pos),
      find_max_usage O pool W H none = some sheet →
      sheet.1 ≠ [] ∧ (removeItems pool sheet.1).length < pool.length) ∧
    ∀ fuel pool, pool.length ≤ fuel →
      multiSheetLoop O W H fuel pool = multiSheetLoop O W H pool.length pool := by
  refine ⟨fun pool sheet h => pool_shrinks h, ?_⟩
  intro fuel
  induction fuel using Nat.strong_induction_on with
  | _ fuel ih =>
    intro pool hle
    match fuel with
    | 0 =>
      have h0 : pool = [] := List.length_eq_zero.1 (Nat.le_zero.1 hle)
      subst h0
      rfl
    | n + 1 =>
      by_cases hp : pool.isEmpty = true
      · have h0 : pool = [] := by simpa using hp
        subst h0
        rfl
      · obtain ⟨m, hm⟩ : ∃ m, pool.length = m + 1 := by
          cases pool with
          | nil => simp at hp
          | cons a t => exact ⟨t.length, rfl⟩
        cases hmu : find_max_usage O pool W H none with
        | none =>
          rw [multiSheetLoop_none O W H n pool hp hmu, hm,
            multiSheetLoop_none O W H m pool hp hmu]
        | some sheet =>
          have hdec := (pool_shrinks hmu).2
          rw [multiSheetLoop_step O W H n pool sheet hp hmu, hm,
            multiSheetLoop_step O W H m pool sheet hp hmu,
            ih n (Nat.lt_succ_self n) (removeItems pool sheet.1) (by omega),
            ih m (by omega) (removeItems pool sheet.1) (by omega)]

/-- C3, checked against the code: the leftover pool is not part of
multi_sheet_packing's return value. On input [(10, 10)] with a 5 x 5 bin
(the oracle reports every attempt infeasible, as the real placer must for
an item exceeding the bin in both orientations) the loop ends with the
item still in the pool, yet the function returns just the empty sheet
list, with no trace of the leftover. -/
theorem C3_leftovers_dropped :
    multi_sheet_packing noneOracle [((10 : ℤ), (10 : ℤ))] 5 5 = [] ∧
    (multiSheetLoop noneOracle 5 5 1 [((10 : ℤ), (10 : ℤ))]).2 =
      [((10 : ℤ), (10 : ℤ))] := by
  constructor
  · decide
  · decide

end RectPack
